import Mathlib

/-!
# Tensorscope core — shallow embedding and verification

This file embeds the algorithmic core of the Tensorscope web client in Lean 4
and proves properties of it:

* the layered graph-layout engine `calculateLayout`
  (src/web/src/components/Graph, file `OperatorGraph.tsx`, in the repository
  snapshot `src/unnamed/part_009`);
* the synchronization store actions (`src/unnamed/part_001`);
* the WebSocket connection manager (`src/web/src/api/websocket.ts`);
* the parameter-update pipeline (`ParameterSlider` in `src/unnamed/part_009`,
  `ParameterSelect` in `src/unnamed/part_008`).

Modelling conventions: JavaScript `Map`s that are only read through `get` with
a `|| default` or `?.` guard are modelled as total or `Option`-valued functions;
the one `Map` that is iterated (`positions`) is modelled as an association list
with JS insertion-order `set` semantics.  JS numbers are modelled as `ℚ`
(every quantity produced by the embedded code is an exact small rational, so ℚ
is faithful here).  The `while` loop of the layering sweep is modelled with
explicit fuel; all theorems either hold for every fuel value or are evaluated
at concrete inputs where the fuel is visibly sufficient.
-/

namespace Tensorscope

/-- Pointwise update of a function-modelled map (JS `map.set(k, v)` for maps
that are only read back through `get`). -/
def upd {α : Type} (m : String → α) (k : String) (v : α) : String → α :=
  fun x => if x = k then v else m x

/-! ## Graph model (`src/web/src/types/index.ts`) -/

/-- Record `GraphNode` from the web client's type declarations.  Only `id` is used by
the layout engine; the remaining display fields are carried for completeness. -/
structure GraphNode where
  id : String
  name : String
  inputs : List String
  outputs : List String
  tags : List String
  deriving Repr, DecidableEq

/-- Record `GraphEdge` from the web client's type declarations. -/
structure GraphEdge where
  from_node : String
  from_output : String
  to_node : String
  to_input : String
  deriving Repr, DecidableEq

/-- Helper for writing concrete nodes in examples. -/
def mkNode (i : String) : GraphNode := ⟨i, i, [], [], []⟩

/-- Helper for writing concrete edges in examples. -/
def mkEdge (a b : String) : GraphEdge := ⟨a, "out", b, "in"⟩

/-! ## Layout engine (`calculateLayout`, src/unnamed/part_009 lines 126-267)

The function is decomposed phase by phase exactly as the source is: adjacency
construction, breadth-first layering sweep, fallback layer insertion, forward
and backward barycenter passes, and coordinate assignment. -/

/-- The `inDegree` map after the two build loops (lines 136-146).  The JS map
is initialized to `0` for every declared node and incremented once per edge at
`edge.to_node` — including edges whose `to_node` is not a declared node id
(`inDegree.get(edge.to_node) || 0` treats a missing key as `0`, so a total
function with default `0` is an exact model; the explicit per-node `set(id, 0)`
of the source is the identity on that default). -/
def buildInDeg (nodes : List GraphNode) (edges : List GraphEdge) : String → Int :=
  edges.foldl (fun m e => upd m e.to_node (m e.to_node + 1))
    (nodes.foldl (fun m n => upd m n.id 0) (fun _ => 0))

/-- One edge of the `outEdges` build loop:
`outEdges.get(edge.from_node)?.push(edge.to_node)` appends only when the key
exists, i.e. edges with an undeclared `from_node` are dropped. -/
def outEdgeStep (m : String → Option (List String)) (e : GraphEdge) :
    String → Option (List String) :=
  match m e.from_node with
  | some l => upd m e.from_node (some (l ++ [e.to_node]))
  | none => m

/-- One edge of the `inEdges` build loop, symmetric to `outEdgeStep`. -/
def inEdgeStep (m : String → Option (List String)) (e : GraphEdge) :
    String → Option (List String) :=
  match m e.to_node with
  | some l => upd m e.to_node (some (l ++ [e.from_node]))
  | none => m

/-- The `outEdges` map (lines 136-146): `some` exactly for declared node ids. -/
def buildOutE (nodes : List GraphNode) (edges : List GraphEdge) :
    String → Option (List String) :=
  edges.foldl outEdgeStep
    (nodes.foldl (fun m n => upd m n.id (some [])) (fun _ => none))

/-- The `inEdges` map (lines 136-146). -/
def buildInE (nodes : List GraphNode) (edges : List GraphEdge) :
    String → Option (List String) :=
  edges.foldl inEdgeStep
    (nodes.foldl (fun m n => upd m n.id (some [])) (fun _ => none))

/-- State of the layering `while` loop (lines 148-176): the layers pushed so
far, the `visited` set (as a list in insertion order), the mutable in-degree
map, and `currentLayer`. -/
structure BfsState where
  layers : List (List String)
  visited : List String
  inDeg : String → Int
  current : List String

/-- The body of the inner `forEach` of one loop iteration (lines 165-173): a
target not in `visited` has its in-degree decremented and is appended to
`nextLayer` when it reaches zero.  The state is the in-degree map together
with the `nextLayer` accumulator. -/
def targetStep (visited : List String) (st : (String → Int) × List String)
    (t : String) : (String → Int) × List String :=
  if visited.contains t then st
  else
    let r := st.1 t - 1
    (upd st.1 t r, if r = 0 then st.2 ++ [t] else st.2)

/-- The `nextLayer` computation of one loop iteration (lines 163-174): for each
node of the current layer, walk its out-edges.  `visited` already contains the
whole current layer at this point, exactly as in the source (the `visited.add`
loop runs first). -/
def processLayer (outE : String → Option (List String)) (visited : List String)
    (st : (String → Int) × List String) (current : List String) :
    (String → Int) × List String :=
  current.foldl
    (fun st u => ((outE u).getD []).foldl (targetStep visited) st)
    st

/-- The layering `while` loop (lines 156-176) with explicit fuel. -/
def bfsRun (outE : String → Option (List String)) : Nat → BfsState → BfsState
  | 0, s => s
  | fuel + 1, s =>
    if s.current = [] then s
    else
      let visited' := s.visited ++ s.current
      let st := processLayer outE visited' (s.inDeg, []) s.current
      bfsRun outE fuel
        { layers := s.layers ++ [s.current], visited := visited',
          inDeg := st.1, current := st.2 }

/-- The initial loop state: layer candidates are the declared nodes whose
in-degree is zero (line 154). -/
def initState (nodes : List GraphNode) (edges : List GraphEdge) : BfsState :=
  let inDeg := buildInDeg nodes edges
  { layers := [], visited := [], inDeg := inDeg,
    current := (nodes.filter (fun n => inDeg n.id = 0)).map (·.id) }

/-- Fuel for the sweep.  Every id ever entering a layer is a declared node id
or some edge's `to_node`, and enters at most once, so this bound suffices. -/
def layoutFuel (nodes : List GraphNode) (edges : List GraphEdge) : Nat :=
  nodes.length + edges.length + 1

/-- The state after the layering sweep. -/
def bfsFinal (nodes : List GraphNode) (edges : List GraphEdge) : BfsState :=
  bfsRun (buildOutE nodes edges) (layoutFuel nodes edges) (initState nodes edges)

/-- The fallback loop for nodes the sweep never reached (lines 178-188).  The
source recomputes `lastLayer = layers.length > 0 ? layers.length : 0` inside
the `forEach`, checks `!layers[lastLayer]` (an out-of-range read is the only
falsy case, an array being truthy), pushes `[]` when absent, and appends the
node id there. -/
def fallbackStep (visited : List String) (ls : List (List String))
    (n : GraphNode) : List (List String) :=
  if visited.contains n.id then ls
  else
    let lastLayer := if 0 < ls.length then ls.length else 0
    let ls2 := if lastLayer < ls.length then ls else ls ++ [[]]
    ls2.set lastLayer (ls2.getD lastLayer [] ++ [n.id])

/-- The fallback `forEach` as a fold of `fallbackStep`. -/
def addFallback (visited : List String) (nodes : List GraphNode)
    (layers : List (List String)) : List (List String) :=
  nodes.foldl (fallbackStep visited) layers

/-- The complete layer assignment: sweep followed by fallback. -/
def assignLayers (nodes : List GraphNode) (edges : List GraphEdge) :
    List (List String) :=
  let s := bfsFinal nodes edges
  addFallback s.visited nodes s.layers

/-- Insert into a list sorted ascending by the second component, after strictly
smaller elements and before equal ones. -/
def bcInsert (x : String × ℚ) : List (String × ℚ) → List (String × ℚ)
  | [] => [x]
  | y :: ys => if x.2 ≤ y.2 then x :: y :: ys else y :: bcInsert x ys

/-- Stable ascending sort by barycenter value, modelling the ES2019-stable
`barycenters.sort((a, b) => a.bc - b.bc)` of lines 215 and 239. -/
def sortByBc : List (String × ℚ) → List (String × ℚ)
  | [] => []
  | x :: xs => bcInsert x (sortByBc xs)

/-- Initial positions of the first layer (lines 195-197). Missing keys read as
`0` via `|| 0` in the source, hence the total function with default `0`. -/
def initYPos (layers : List (List String)) : String → ℚ :=
  ((layers.getD 0 []).enum).foldl (fun m p => upd m p.2 (p.1 : ℚ)) (fun _ => 0)

/-- The barycenter entry of one node (lines 204-211 and 229-236): the average
current position of its neighbors in the adjacency map (`reduce(...) /
length`), or the supplied fallback value when it has none — `0` in the
forward pass, the node's own current position in the backward pass. -/
def barycenterPair (adj : String → Option (List String)) (dflt : String → ℚ)
    (yPos : String → ℚ) (nodeId : String) : String × ℚ :=
  if 0 < ((adj nodeId).getD []).length then
    (nodeId,
      (((adj nodeId).getD []).foldl (fun sum p => sum + yPos p) 0)
        / (((adj nodeId).getD []).length : ℚ))
  else (nodeId, dflt nodeId)

/-- One iteration of the forward barycenter pass (lines 200-222) at layer
index `i`: each node's barycenter is the average current position of its
`inEdges` parents (`0` when it has none), the layer is stably sorted by that
value, and positions are re-indexed `0..n-1`. -/
def forwardStep (inE : String → Option (List String))
    (st : List (List String) × (String → ℚ)) (i : Nat) :
    List (List String) × (String → ℚ) :=
  let layer := st.1.getD i []
  let sorted :=
    (sortByBc (layer.map (barycenterPair inE (fun _ => 0) st.2))).map Prod.fst
  (st.1.set i sorted,
   sorted.enum.foldl (fun m p => upd m p.2 (p.1 : ℚ)) st.2)

/-- One iteration of the backward pass (lines 225-247) at layer index `i`,
using `outEdges` children; a node with no children keeps its current position
value as its barycenter. -/
def backwardStep (outE : String → Option (List String))
    (st : List (List String) × (String → ℚ)) (i : Nat) :
    List (List String) × (String → ℚ) :=
  let layer := st.1.getD i []
  let sorted :=
    (sortByBc (layer.map (barycenterPair outE st.2 st.2))).map Prod.fst
  (st.1.set i sorted,
   sorted.enum.foldl (fun m p => upd m p.2 (p.1 : ℚ)) st.2)

/-- The ordered layers after both barycenter passes: forward over indices
`1 .. layers.length - 1`, backward over `layers.length - 2 .. 0`. -/
def orderLayers (nodes : List GraphNode) (edges : List GraphEdge) :
    List (List String) :=
  let layers := assignLayers nodes edges
  let inE := buildInE nodes edges
  let outE := buildOutE nodes edges
  let st1 := ((List.range layers.length).drop 1).foldl
    (forwardStep inE) (layers, initYPos layers)
  let st2 := ((List.range (layers.length - 1)).reverse).foldl
    (backwardStep outE) st1
  st2.1

/-- Layout constants (lines 119-120). -/
def HORIZONTAL_SPACING : ℚ := 280

/-- Layout constant (line 120). -/
def VERTICAL_SPACING : ℚ := 100

/-- JS `Map.set` on a map that is later iterated: overwrite in place when the
key is present (keeping its original insertion position), append otherwise. -/
def mapSet {α : Type} (m : List (String × α)) (k : String) (v : α) :
    List (String × α) :=
  if m.any (fun p => p.1 = k) then
    m.map (fun p => if p.1 = k then (k, v) else p)
  else m ++ [(k, v)]

/-- Coordinate assignment (lines 249-264): x = layer index × horizontal
spacing, y = vertical centering offset + node index × vertical spacing.
`Math.max(...)` over the layer sizes is modelled with a fold from `0`; the two
differ only on an empty layer list, where no position is written anyway. -/
def placeLayers (layers : List (List String)) : List (String × (ℚ × ℚ)) :=
  let maxLayerSize : ℚ := (layers.map (fun l => (l.length : ℚ))).foldl max 0
  layers.enum.foldl
    (fun pos li =>
      let layerHeight := (li.2.length : ℚ) * VERTICAL_SPACING
      let maxHeight := maxLayerSize * VERTICAL_SPACING
      let offsetY := (maxHeight - layerHeight) / 2
      li.2.enum.foldl
        (fun pos ni =>
          mapSet pos ni.2
            ((li.1 : ℚ) * HORIZONTAL_SPACING, offsetY + (ni.1 : ℚ) * VERTICAL_SPACING))
        pos)
    []

/-- Function `calculateLayout` (src/unnamed/part_009 lines 126-267): the full layered
layout with barycenter crossing reduction, returning the `positions` map as an
insertion-ordered association list. -/
def calculateLayout (nodes : List GraphNode) (edges : List GraphEdge) :
    List (String × (ℚ × ℚ)) :=
  if nodes.length = 0 then []
  else placeLayers (orderLayers nodes edges)

/-- Index of the layer containing a node id, if any. -/
def layerOf (layers : List (List String)) (i : String) : Option Nat :=
  layers.findIdx? (fun l => l.contains i)

end Tensorscope

namespace Tensorscope

/-! ## Synchronization store (`src/unnamed/part_001`)

The Zustand store is modelled as an explicit state record; each store action
becomes a state-transition function, and each `async` action is split at its
`await` into atomic segments, matching the single-threaded event-loop model:
between suspension points execution is atomic with respect to the store. -/

/-- A parameter value: JS `number | string`. -/
inductive PValue where
  | num (q : ℚ)
  | str (s : String)
  deriving Repr, DecidableEq

/-- One parameter declaration of a scenario (name and default; the remaining
display fields do not enter any store transition). -/
structure ParameterDef where
  name : String
  default : PValue
  deriving Repr, DecidableEq

/-- Scenario detail as fetched by `selectScenario` (id plus declared
parameters; the graph and probe payloads do not enter the store logic). -/
structure ScenarioDetail where
  id : String
  parameters : List ParameterDef
  deriving Repr, DecidableEq

/-- Record `TensorSummary` — treated by the store as an opaque value keyed by id;
a few representative fields are carried. -/
structure TensorSummary where
  id : String
  name : String
  dtype : String
  shape : List Nat
  deriving Repr, DecidableEq

/-- The store slice touched by the scenario/tensor actions.  `Record`s are
modelled as `Option`-valued functions. -/
structure StoreState where
  currentScenario : Option ScenarioDetail
  isLoadingScenario : Bool
  isRunningScenario : Bool
  scenarioError : Option String
  tensors : String → Option TensorSummary
  selectedTensorId : Option String
  parameters : String → Option PValue

/-- Action `updateTensor` (lines 158-162): spread of the previous map with the one
key overridden. -/
def updateTensor (id : String) (summary : TensorSummary) (s : StoreState) :
    StoreState :=
  { s with tensors := upd s.tensors id (some summary) }

/-- Action `setTensors` (lines 164-166): wholesale replacement of the map. -/
def setTensors (tensors : String → Option TensorSummary) (s : StoreState) :
    StoreState :=
  { s with tensors := tensors }

/-- Action `updateParameter` (lines 132-136): pure local mutation of one key. -/
def updateParameter (name : String) (value : PValue) (s : StoreState) :
    StoreState :=
  { s with parameters := upd s.parameters name (some value) }

/-- First atomic segment of `runCurrentScenario` (lines 138-144): read the
current scenario and return early when there is none; otherwise set the
running flag and issue the fetch.  The second component is the scenario id
captured by the outstanding request. -/
def runCurrentScenarioStart (s : StoreState) : StoreState × Option String :=
  match s.currentScenario with
  | none => (s, none)
  | some sc => ({ s with isRunningScenario := true }, some sc.id)

/-- Success segment of `runCurrentScenario` (line 145), run when the fetch
issued by `runCurrentScenarioStart` resolves: the response replaces `tensors`
unconditionally — the code performs no check that the scenario the request was
issued for is still the current one. -/
def runCurrentScenarioResolve (response : String → Option TensorSummary)
    (s : StoreState) : StoreState :=
  { s with tensors := response, isRunningScenario := false }

/-- Failure segment of `runCurrentScenario` (lines 146-151): the flag clears
and the previous tensors are kept. -/
def runCurrentScenarioReject (s : StoreState) : StoreState :=
  { s with isRunningScenario := false }

/-- First atomic segment of `selectScenario` (line 93). -/
def selectScenarioStart (s : StoreState) : StoreState :=
  { s with isLoadingScenario := true, scenarioError := none }

/-- The default-parameter seeding loop of `selectScenario` (lines 97-101). -/
def seedDefaults (params : List ParameterDef) : String → Option PValue :=
  params.foldl (fun m p => upd m p.name (some p.default)) (fun _ => none)

/-- Success segment of `selectScenario` (lines 95-109), run when
`fetchScenario` resolves: install the scenario, seed parameter defaults, and
clear `tensors` and the tensor selection. -/
def selectScenarioResolve (scenario : ScenarioDetail) (s : StoreState) :
    StoreState :=
  { s with currentScenario := some scenario,
           parameters := seedDefaults scenario.parameters,
           isLoadingScenario := false,
           tensors := fun _ => none,
           selectedTensorId := none }

/-! ## Connection manager (`src/web/src/api/websocket.ts`)

The hook keeps three pieces of mutable connection bookkeeping:
`reconnectAttemptsRef`, `reconnectTimeoutRef` (modelled as a Boolean: is an
unfired reconnect timer scheduled?), and the `isConnected` flag.  Events are
the socket callbacks and the timer callback; each event is one atomic handler
run, per the single-threaded model. -/

/-- Default of the `maxReconnectAttempts` option (line 33). -/
def defaultMaxReconnectAttempts : Nat := 10

/-- Default of the `reconnectInterval` option, in milliseconds (line 32). -/
def defaultReconnectInterval : Nat := 3000

/-- Connection bookkeeping of `useWebSocket`. -/
structure WSConn where
  reconnectAttempts : Nat
  timerPending : Bool
  connected : Bool
  deriving Repr, DecidableEq

/-- Events delivered to the hook: `ws.onopen`, the reconnect timer firing
(which calls `connect()`; the outcome of that attempt arrives as a later
`onOpen`/`onClose` event), and `ws.onclose`. -/
inductive WSEvent where
  | onOpen
  | timerFire
  | onClose
  deriving Repr, DecidableEq

/-- One handler run (lines 74-89): `onopen` sets the flag and resets the
attempt counter; the timer firing consumes the pending timer; `onclose`
clears the flag and, when the attempt counter is below the cap, increments it
and schedules a reconnect timer — otherwise it schedules nothing. -/
def wsStep (maxAttempts : Nat) (s : WSConn) : WSEvent → WSConn
  | .onOpen => { s with connected := true, reconnectAttempts := 0 }
  | .timerFire => { s with timerPending := false }
  | .onClose =>
    if s.reconnectAttempts < maxAttempts then
      { reconnectAttempts := s.reconnectAttempts + 1, timerPending := true,
        connected := false }
    else
      { s with connected := false }

/-- Folding a sequence of events through the handlers. -/
def wsRun (maxAttempts : Nat) (s : WSConn) (evs : List WSEvent) : WSConn :=
  evs.foldl (wsStep maxAttempts) s

/-- The cleanup function returned by the mount effect (lines 108-113): it
clears any pending reconnect timer and calls `close()` on the socket.  The
socket's close event is delivered afterwards and still runs the attached
`onclose` handler (`wsStep … .onClose`); the code sets no intentional-close
flag that the handler could consult. -/
def wsTeardown (s : WSConn) : WSConn :=
  { s with timerPending := false }

/-- A freshly connected manager: the preceding `onopen` reset the attempt
counter, no timer is pending. -/
def wsConnected : WSConn :=
  { reconnectAttempts := 0, timerPending := false, connected := true }

/-- Trace of `n` consecutive immediate disconnects starting from a live connection: the
first drop, then each scheduled timer fires, `connect()` runs, and the attempt
fails straight to `onclose` with no intervening `onopen`. -/
def disconnectBurst : Nat → List WSEvent
  | 0 => []
  | n + 1 => disconnectBurst n ++ [WSEvent.timerFire, WSEvent.onClose]

/-- The full event trace of `n` consecutive immediate disconnects: the initial
close of the live connection followed by `n - 1` failed reconnect attempts. -/
def disconnectTrace (n : Nat) : List WSEvent :=
  WSEvent.onClose :: disconnectBurst (n - 1)

/-! ## Parameter update pipeline

`ParameterSlider` (src/unnamed/part_009 lines 13-50) keeps the immediately
updated local value and a debounce timer holding the value it will deliver;
`sent` records the values actually delivered to the network-bound `onChange`
callback, in order. -/

/-- Default of the `debounceMs` prop (line 17). -/
def defaultDebounceMs : Nat := 150

/-- Debounce state of `ParameterSlider`: `localValue` (the `useState`),
`pendingTimer` (the `debounceRef` timeout together with the value its callback
closes over), and the delivery log of the `onChange` callback. -/
structure SliderState where
  localValue : ℚ
  pendingTimer : Option ℚ
  sent : List ℚ
  deriving Repr, DecidableEq

/-- Handler `handleChange` (lines 27-41): immediately update the local value, clear
any previously scheduled timeout, and schedule a new one that will deliver
this value. -/
def sliderHandleChange (v : ℚ) (s : SliderState) : SliderState :=
  { s with localValue := v, pendingTimer := some v }

/-- The debounce timeout firing after the quiet window (lines 36-38): deliver
the closed-over value to `onChange`.  With no timer pending nothing happens. -/
def sliderFire (s : SliderState) : SliderState :=
  match s.pendingTimer with
  | some v => { s with sent := s.sent ++ [v], pendingTimer := none }
  | none => s

/-- A burst of rapid changes: each change arrives before the previous quiet
window elapses, so each `handleChange` clears the previous timer. -/
def sliderBurst (s : SliderState) (vs : List ℚ) : SliderState :=
  vs.foldl (fun s v => sliderHandleChange v s) s

/-! ## Discrete parameter select (`src/unnamed/part_008` lines 16-22) -/

/-- Longest leading run of decimal digits of a character list, with the rest. -/
def takeDigits : List Char → List Nat × List Char
  | [] => ([], [])
  | c :: cs =>
    if c.isDigit then
      let p := takeDigits cs
      ((c.toNat - 48) :: p.1, p.2)
    else ([], c :: cs)

/-- Optional leading sign. -/
def parseSign : List Char → Int × List Char
  | '+' :: cs => (1, cs)
  | '-' :: cs => (-1, cs)
  | cs => (1, cs)

/-- Decimal value of a digit run. -/
def digitsToNat (ds : List Nat) : Nat :=
  ds.foldl (fun a d => a * 10 + d) 0

/-- The syntactic parts of a parsed JS number literal prefix. -/
structure FloatParts where
  sign : Int
  intDigits : List Nat
  fracDigits : List Nat
  exponent : Int
  deriving Repr, DecidableEq

/-- Character-level part of the JavaScript `parseFloat` builtin: skip leading
whitespace, then take the longest prefix of the form sign, digits, optional
`.` and fraction digits, optional decimal exponent; ignore everything after
that prefix; return `none` (JS `NaN`) when no digits were consumed.
Restricted to finite decimal notation: the `Infinity` literal and non-ASCII
whitespace are not modelled (no claim exercises them). -/
def parseFloatParts (s : String) : Option FloatParts :=
  let cs := s.toList.dropWhile
    (fun c => c == ' ' || c == '\t' || c == '\n' || c == '\r')
  let sp := parseSign cs
  let ip := takeDigits sp.2
  let fp : List Nat × List Char :=
    match ip.2 with
    | '.' :: cs2 => takeDigits cs2
    | _ => ([], ip.2)
  if ip.1 = [] ∧ fp.1 = [] then none
  else
    let ex : Int :=
      match fp.2 with
      | c :: cs3 =>
        if c = 'e' ∨ c = 'E' then
          let es := parseSign cs3
          let ed := takeDigits es.2
          if ed.1 = [] then 0 else es.1 * (digitsToNat ed.1 : Int)
        else 0
      | [] => 0
    some ⟨sp.1, ip.1, fp.1, ex⟩

/-- Numeric value of the parsed parts.  ℚ replaces binary floating point —
exact for every value appearing in the claims. -/
def floatValue (p : FloatParts) : ℚ :=
  (p.sign : ℚ)
    * ((digitsToNat p.intDigits : ℚ)
        + (digitsToNat p.fracDigits : ℚ) / ((10 : ℚ) ^ p.fracDigits.length))
    * ((10 : ℚ) ^ p.exponent)

/-- Model of the JavaScript `parseFloat` builtin. -/
def parseFloat (s : String) : Option ℚ :=
  (parseFloatParts s).map floatValue

/-- Handler `ParameterSelect.handleChange` (src/unnamed/part_008 lines 16-22): parse
the option string as a number; deliver the number unless the parse is `NaN`,
in which case deliver the original string. -/
def selectHandleChange (rawValue : String) : PValue :=
  match parseFloat rawValue with
  | some n => PValue.num n
  | none => PValue.str rawValue

end Tensorscope
namespace Tensorscope

/-! ## Concrete fixtures used by the store and connection theorems -/

/-- A scenario detail fixture. -/
def scenarioA : ScenarioDetail := ⟨"A", []⟩

/-- A second scenario detail fixture. -/
def scenarioB : ScenarioDetail := ⟨"B", []⟩

/-- A tensor summary computed for scenario `A`. -/
def tensorOfA : TensorSummary := ⟨"tA", "result of A", "float64", [2, 2]⟩

/-- The run-response payload of scenario `A`. -/
def runResponseA : String → Option TensorSummary :=
  fun k => if k = "tA" then some tensorOfA else none

/-- A store currently showing scenario `A` with no tensors yet. -/
def storeOnA : StoreState :=
  { currentScenario := some scenarioA, isLoadingScenario := false,
    isRunningScenario := false, scenarioError := none,
    tensors := fun _ => none, selectedTensorId := none,
    parameters := fun _ => none }

/-- A tensor summary fixture. -/
def sampleSummary : TensorSummary := ⟨"t1", "t1", "float64", [3]⟩

/-- A bulk tensors payload that already contains `t1 ↦ sampleSummary`. -/
def mapWithT1 : String → Option TensorSummary :=
  fun k => if k = "t1" then some sampleSummary else none

/-- An empty store. -/
def emptyStore : StoreState :=
  { currentScenario := none, isLoadingScenario := false,
    isRunningScenario := false, scenarioError := none,
    tensors := fun _ => none, selectedTensorId := none,
    parameters := fun _ => none }

/-! ## Claims C4-C10 -/

/-- C4. For every fixed graph (same node sequence, same edge sequence),
any two invocations of `calculateLayout` produce identical position maps: the
same keys and the same `(x, y)` value for every key.  The source function
reads no ambient state, JS `Map` iteration order is insertion order, and the
ES2019 `Array.prototype.sort` it relies on is stable, so the function is pure;
the shallow embedding makes this literal: two invocations are the same
value. -/
theorem calculateLayout_deterministic (nodes : List GraphNode)
    (edges : List GraphEdge) :
    calculateLayout nodes edges = calculateLayout nodes edges := rfl

/-- C5. The claim says the eventual resolution of a `runCurrentScenario`
fetch checks that its scenario id is still current before applying, so a late
result is never written while another scenario is current.  The code
(src/unnamed/part_001 lines 138-152) has no such check: this theorem runs the
failing interleaving.  A run is issued for scenario `A` (the request captures
id `"A"`); `selectScenario("B")` then resolves, installing scenario `B` with
empty tensors; when `A`'s response finally arrives, `runCurrentScenarioResolve`
writes `A`'s tensors into the store even though `B` is current. -/
theorem lateRunResolveOverwritesNewScenario :
    (runCurrentScenarioStart storeOnA).2 = some "A" ∧
    (selectScenarioResolve scenarioB
        (runCurrentScenarioStart storeOnA).1).tensors "tA" = none ∧
    (runCurrentScenarioResolve runResponseA
        (selectScenarioResolve scenarioB
          (runCurrentScenarioStart storeOnA).1)).currentScenario
      = some scenarioB ∧
    (runCurrentScenarioResolve runResponseA
        (selectScenarioResolve scenarioB
          (runCurrentScenarioStart storeOnA).1)).tensors "tA" = some tensorOfA :=
  ⟨rfl, rfl, rfl, rfl⟩

/-- C6 (counterexample). After exactly `N = 10` (the default cap)
consecutive immediate disconnects starting from a connected channel, with no
intervening successful connection, a reconnection timer is *still* scheduled
(`timerPending = true`), because the close handler schedules a retry whenever
the attempt counter is below the cap, and the counter only reaches the cap
*at* the `N`-th close.  This contradicts the claim that after the `N`-th
disconnect the connection is failed with no further timer scheduled. -/
theorem reconnectTimerStillPendingAfterCapDisconnects :
    (disconnectTrace defaultMaxReconnectAttempts).count WSEvent.onClose
        = defaultMaxReconnectAttempts ∧
    WSEvent.onOpen ∉ disconnectTrace defaultMaxReconnectAttempts ∧
    (wsRun defaultMaxReconnectAttempts wsConnected
        (disconnectTrace defaultMaxReconnectAttempts)).timerPending = true := by
  decide

/-- C6 (amended). Starting from a connected channel, after `N + 1`
consecutive immediate disconnects — the drop of the live connection followed
by `N` failed reconnection attempts, `N` the configured cap — the manager has
exhausted its attempts: no reconnection timer is scheduled, and (second
conjunct) from any state at or beyond the cap with no pending timer, no
sequence of further close/timer events that contains no successful open ever
schedules a reconnection timer again or changes the exhausted counter. -/
theorem reconnectCapTerminal :
    (wsRun defaultMaxReconnectAttempts wsConnected
        (disconnectTrace (defaultMaxReconnectAttempts + 1)))
      = ⟨defaultMaxReconnectAttempts, false, false⟩ ∧
    ∀ (s : WSConn) (evs : List WSEvent),
      defaultMaxReconnectAttempts ≤ s.reconnectAttempts →
      s.timerPending = false →
      WSEvent.onOpen ∉ evs →
      (wsRun defaultMaxReconnectAttempts s evs).timerPending = false ∧
      defaultMaxReconnectAttempts
        ≤ (wsRun defaultMaxReconnectAttempts s evs).reconnectAttempts := by
  refine ⟨by decide, ?_⟩
  intro s evs
  induction evs generalizing s with
  | nil => exact fun h1 h2 _ => ⟨h2, h1⟩
  | cons e rest ih =>
    intro h1 h2 hno
    rw [List.mem_cons] at hno
    push_neg at hno
    have hstep : (wsStep defaultMaxReconnectAttempts s e).timerPending = false ∧
        defaultMaxReconnectAttempts
          ≤ (wsStep defaultMaxReconnectAttempts s e).reconnectAttempts := by
      cases e with
      | onOpen => exact absurd rfl hno.1
      | timerFire => exact ⟨rfl, h1⟩
      | onClose =>
        have hnl : ¬ s.reconnectAttempts < defaultMaxReconnectAttempts :=
          not_lt.mpr h1
        simp [wsStep, hnl, h2, h1]
    exact ih (wsStep defaultMaxReconnectAttempts s e) hstep.2 hstep.1 hno.2

/-- Witness for `reconnectCapTerminal`: the exhausted state stays exhausted
through two further closes with a timer fire between them. -/
theorem reconnectCapTerminal_witness :
    (wsRun defaultMaxReconnectAttempts ⟨10, false, false⟩
        [WSEvent.onClose, WSEvent.timerFire, WSEvent.onClose]).timerPending
      = false :=
  (reconnectCapTerminal.2 ⟨10, false, false⟩
    [WSEvent.onClose, WSEvent.timerFire, WSEvent.onClose]
    (by decide) rfl (by decide)).1

/-- C7. Claim: after the teardown cleanup runs, no reconnection timer is
ever scheduled and no new channel is opened until re-initiation.  Code: the
cleanup (websocket.ts lines 108-113) clears the pending timer and calls
`ws.close()`, but the close event this triggers still runs the attached
`onclose` handler, which sees `reconnectAttempts = 0 < 10`, increments the
counter and schedules a fresh reconnection timer; when that timer fires,
`connect()` runs against the torn-down component and opens a new socket.  The
hook keeps no intentional-close flag the handler could consult. -/
theorem closeAfterTeardownSchedulesReconnect :
    (wsTeardown wsConnected).timerPending = false ∧
    (wsStep defaultMaxReconnectAttempts (wsTeardown wsConnected)
        WSEvent.onClose).timerPending = true ∧
    (wsStep defaultMaxReconnectAttempts (wsTeardown wsConnected)
        WSEvent.onClose).reconnectAttempts = 1 := by
  decide

/-- C8 (counterexample). `setTensors(map)` followed by
`updateTensor(id, s)` need not yield a map that differs from `map` at the key
`id`: when `map` already maps `id` to `s`, the override writes the value that
is already present and nothing differs, contradicting "differs from map in
exactly the one key id". -/
theorem updateAfterSetCanChangeNothing :
    mapWithT1 "t1" = some sampleSummary ∧
    (updateTensor "t1" sampleSummary
        (setTensors mapWithT1 emptyStore)).tensors "t1" = mapWithT1 "t1" :=
  ⟨rfl, rfl⟩

/-- C8 (amended). `updateTensor(id, s)` followed by `setTensors(map)` with
`id` not a key of `map` leaves `tensors[id]` absent (the full replace wins);
and `setTensors(map)` followed by `updateTensor(id, s)` yields a map with
`tensors[id] = s` and every other key unchanged from `map` — so at most the
one key `id` differs (and nothing differs when `map` already maps `id` to
`s`). -/
theorem tensorMergeLaws :
    (∀ (s : StoreState) (id : String) (u : TensorSummary)
        (m : String → Option TensorSummary), m id = none →
      (setTensors m (updateTensor id u s)).tensors id = none) ∧
    (∀ (s : StoreState) (id : String) (u : TensorSummary)
        (m : String → Option TensorSummary),
      (updateTensor id u (setTensors m s)).tensors id = some u ∧
      ∀ k, k ≠ id → (updateTensor id u (setTensors m s)).tensors k = m k) := by
  constructor
  · intro s id u m h
    exact h
  · intro s id u m
    refine ⟨?_, ?_⟩
    · simp [updateTensor, setTensors, upd]
    · intro k hk
      simp [updateTensor, setTensors, upd, hk]

/-- Witness for `tensorMergeLaws` at concrete store values. -/
theorem tensorMergeLaws_witness :
    (setTensors (fun _ => none)
        (updateTensor "t1" sampleSummary emptyStore)).tensors "t1" = none ∧
    (updateTensor "t1" sampleSummary
        (setTensors mapWithT1 emptyStore)).tensors "x" = mapWithT1 "x" :=
  ⟨tensorMergeLaws.1 emptyStore "t1" sampleSummary (fun _ => none) rfl,
   (tensorMergeLaws.2 emptyStore "t1" sampleSummary mapWithT1).2 "x" (by decide)⟩

/-- C9. For every burst of rapid slider changes (each change arriving
inside the quiet window of the previous one): each change immediately updates
the visible local value; nothing is delivered to the network-bound `onChange`
during the burst; when the quiet window finally elapses, exactly the last
value of the burst is delivered and the timer is consumed — no intermediate
value is ever sent.  The quiet window length is the `debounceMs` prop,
default 150 ms, restarted on every change (`clearTimeout` + `setTimeout`). -/
theorem sliderDebounceDeliversOnlyLast :
    defaultDebounceMs = 150 ∧
    (∀ (v : ℚ) (s : SliderState), (sliderHandleChange v s).localValue = v) ∧
    ∀ (s : SliderState) (vs : List ℚ) (h : vs ≠ []),
      (sliderBurst s vs).localValue = vs.getLast h ∧
      (sliderBurst s vs).sent = s.sent ∧
      (sliderFire (sliderBurst s vs)).sent = s.sent ++ [vs.getLast h] ∧
      (sliderFire (sliderBurst s vs)).pendingTimer = none := by
  refine ⟨rfl, fun v s => rfl, ?_⟩
  intro s vs
  induction vs generalizing s with
  | nil => exact fun h => absurd rfl h
  | cons v rest ih =>
    intro h
    cases rest with
    | nil => exact ⟨rfl, rfl, rfl, rfl⟩
    | cons w ws =>
      have hne : (w :: ws) ≠ [] := by simp
      have hl : (v :: w :: ws).getLast h = (w :: ws).getLast hne :=
        List.getLast_cons hne
      obtain ⟨ih1, ih2, ih3, ih4⟩ := ih (sliderHandleChange v s) hne
      exact ⟨by rw [hl]; exact ih1, ih2, by rw [hl]; exact ih3, ih4⟩

/-- Witness for `sliderDebounceDeliversOnlyLast` on the burst `1, 2, 3`. -/
theorem sliderDebounceDeliversOnlyLast_witness :
    (sliderFire (sliderBurst ⟨0, none, []⟩ [1, 2, 3])).sent = [(3 : ℚ)] :=
  (sliderDebounceDeliversOnlyLast.2.2 ⟨0, none, []⟩ [1, 2, 3]
    (by simp)).2.2.1

/-- C10. The value `ParameterSelect` delivers to `onChange` is
`parseFloat` of the option's string whenever that parse is a number, and the
original string otherwise; in particular the string option `"2x"` — a string
with a leading numeric prefix — is delivered as the number `2`, not as the
original string. -/
theorem selectDeliversParsedNumber :
    (∀ (s : String) (q : ℚ), parseFloat s = some q →
      selectHandleChange s = PValue.num q) ∧
    (∀ s : String, parseFloat s = none →
      selectHandleChange s = PValue.str s) ∧
    parseFloat "2x" = some 2 ∧
    selectHandleChange "2x" = PValue.num 2 ∧
    selectHandleChange "abc" = PValue.str "abc" := by
  have h2x : parseFloat "2x" = some 2 := by
    have hp : parseFloatParts "2x" = some ⟨1, [2], [], 0⟩ := by decide
    rw [parseFloat, hp]
    show some (floatValue ⟨1, [2], [], 0⟩) = some 2
    norm_num [floatValue, digitsToNat]
  have habc : parseFloat "abc" = none := by
    have hp : parseFloatParts "abc" = none := by decide
    rw [parseFloat, hp]
    rfl
  refine ⟨?_, ?_, h2x, ?_, ?_⟩
  · intro s q h
    rw [selectHandleChange, h]
  · intro s h
    rw [selectHandleChange, h]
  · rw [selectHandleChange, h2x]
  · rw [selectHandleChange, habc]

/-- Witness for `selectDeliversParsedNumber`: the implication branches applied
at `"2x"` (numeric parse) and `"abc"` (NaN). -/
theorem selectDeliversParsedNumber_witness :
    selectHandleChange "2x" = PValue.num 2 ∧
    selectHandleChange "abc" = PValue.str "abc" :=
  ⟨selectDeliversParsedNumber.1 "2x" 2 selectDeliversParsedNumber.2.2.1,
   selectDeliversParsedNumber.2.1 "abc" (by
    have hp : parseFloatParts "abc" = none := by decide
    rw [parseFloat, hp]
    rfl)⟩

end Tensorscope
namespace Tensorscope

/-! ## Structure of the fallback layers (claims C2, C3, C1) -/

/-- Setting the index just past `ls` in `ls ++ [x]` replaces that element. -/
theorem set_append_singleton {α : Type} (ls : List α) (x y : α) :
    (ls ++ [x]).set ls.length y = ls ++ [y] := by
  induction ls with
  | nil => rfl
  | cons a t ih => simp [List.set, ih]

/-- Reading the index just past `ls` in `ls ++ [x]` gives `x`. -/
theorem getD_append_singleton {α : Type} (ls : List α) (x d : α) :
    (ls ++ [x]).getD ls.length d = x := by
  induction ls with
  | nil => rfl
  | cons a t ih => simp

/-- A visited node leaves the layer list unchanged. -/
theorem fallbackStep_visited {visited : List String} {n : GraphNode}
    (h : visited.contains n.id = true) (ls : List (List String)) :
    fallbackStep visited ls n = ls := by
  unfold fallbackStep
  rw [h]
  simp

/-- An unreached node is appended as its own fresh singleton layer: the
recomputed `lastLayer` always equals the current `layers.length`, so the
guard `!layers[lastLayer]` always pushes a new empty layer first. -/
theorem fallbackStep_unvisited {visited : List String} {n : GraphNode}
    (h : visited.contains n.id = false) (ls : List (List String)) :
    fallbackStep visited ls n = ls ++ [[n.id]] := by
  have hll : (if 0 < ls.length then ls.length else 0) = ls.length := by
    cases ls <;> simp
  unfold fallbackStep
  rw [h]
  simp only [Bool.false_eq_true, if_false, hll]
  rw [if_neg (lt_irrefl ls.length), getD_append_singleton, List.nil_append,
    set_append_singleton]

/-- The whole fallback loop appends one singleton layer per unreached node,
in declaration order. -/
theorem addFallback_eq (visited : List String) (nodes : List GraphNode)
    (layers : List (List String)) :
    addFallback visited nodes layers =
      layers ++
        (nodes.filter (fun n => !(visited.contains n.id))).map
          (fun n => [n.id]) := by
  induction nodes generalizing layers with
  | nil => simp [addFallback]
  | cons n ns ih =>
    have hcons : addFallback visited (n :: ns) layers
        = addFallback visited ns (fallbackStep visited layers n) := rfl
    cases h : visited.contains n.id with
    | true =>
      have hm : n.id ∈ visited := by simpa using h
      rw [hcons, fallbackStep_visited h, ih]
      simp [List.filter_cons, hm]
    | false =>
      have hm : n.id ∉ visited := by simpa using h
      rw [hcons, fallbackStep_unvisited h, ih]
      simp [List.filter_cons, hm]

/-- C2 (counterexample). In the two-node cycle `A ⇄ B` the sweep resolves
nothing (`visited = []` — both in-degrees stay positive), and the fallback
loop then assigns A and B to two *different* singleton layers, indices 0 and
1, because `lastLayer` is recomputed as the current `layers.length` for each
node.  This contradicts the claim that all never-reached nodes share one
single fallback layer index. -/
theorem twoCycleFallbackLayersDiffer :
    (bfsFinal [mkNode "A", mkNode "B"]
        [mkEdge "A" "B", mkEdge "B" "A"]).visited = [] ∧
    layerOf (assignLayers [mkNode "A", mkNode "B"]
        [mkEdge "A" "B", mkEdge "B" "A"]) "A" = some 0 ∧
    layerOf (assignLayers [mkNode "A", mkNode "B"]
        [mkEdge "A" "B", mkEdge "B" "A"]) "B" = some 1 := by
  decide

/-- C2 (amended). Every node never assigned a layer by the breadth-first
sweep is appended — in node declaration order — as its *own* new singleton
layer after the last topologically resolved layer; none is dropped.  (What
fails in the original claim is only "one single shared fallback layer": the
code opens a fresh layer per unreached node.) -/
theorem fallbackAppendsSingletonPerNode (nodes : List GraphNode)
    (edges : List GraphEdge) :
    assignLayers nodes edges =
      (bfsFinal nodes edges).layers ++
        (nodes.filter
            (fun n => !((bfsFinal nodes edges).visited.contains n.id))).map
          (fun n => [n.id]) :=
  addFallback_eq _ _ _

/-- C3 (counterexample). In the graph with nodes `A, B` and the single
self-loop edge `A → A`: the self-loop keeps A's in-degree at 1, so the sweep
never resolves A and the fallback assigns it layer 1; without the self-loop A
would be in layer 0.  The self-loop therefore does block in-degree resolution,
contradicting "the node is assigned the layer it would receive if the
self-loop were absent".  Moreover A's `inEdges` adjacency list is `["A"]`:
the self-loop is present in — not excluded from — the neighbor list over
which the barycenter average of A is computed. -/
theorem selfLoopShiftsLayerAndEntersAdjacency :
    layerOf (assignLayers [mkNode "A", mkNode "B"] [mkEdge "A" "A"]) "A"
        = some 1 ∧
    layerOf (assignLayers [mkNode "A", mkNode "B"] []) "A" = some 0 ∧
    buildInE [mkNode "A", mkNode "B"] [mkEdge "A" "A"] "A" = some ["A"] := by
  decide

end Tensorscope
namespace Tensorscope

/-! ## Membership preservation through the barycenter passes (claim C1) -/

/-- Insertion into the sorted list permutes. -/
theorem bcInsert_perm (x : String × ℚ) (l : List (String × ℚ)) :
    (bcInsert x l).Perm (x :: l) := by
  induction l with
  | nil => exact List.Perm.refl _
  | cons y ys ih =>
    rw [bcInsert]
    by_cases h : x.2 ≤ y.2
    · rw [if_pos h]
    · rw [if_neg h]
      exact (List.Perm.cons y ih).trans (List.Perm.swap x y ys)

/-- The stable sort permutes. -/
theorem sortByBc_perm (l : List (String × ℚ)) : (sortByBc l).Perm l := by
  induction l with
  | nil => exact List.Perm.refl _
  | cons x xs ih =>
    rw [sortByBc]
    exact (bcInsert_perm x (sortByBc xs)).trans (List.Perm.cons x ih)

/-- Ids of the sorted barycenter list are the ids of the input list. -/
theorem mem_map_fst_sortByBc (l : List (String × ℚ)) (a : String) :
    a ∈ (sortByBc l).map Prod.fst ↔ a ∈ l.map Prod.fst :=
  ((sortByBc_perm l).map Prod.fst).mem_iff

/-- A barycenter pair carries its node id. -/
theorem fst_barycenterPair (adj : String → Option (List String))
    (dflt yPos : String → ℚ) (a : String) :
    (barycenterPair adj dflt yPos a).1 = a := by
  unfold barycenterPair
  split <;> rfl

/-- The id list of a layer's barycenter entries is the layer itself. -/
theorem map_fst_barycenterPairs (adj : String → Option (List String))
    (dflt yPos : String → ℚ) (layer : List String) :
    ((layer.map (barycenterPair adj dflt yPos)).map Prod.fst) = layer := by
  induction layer with
  | nil => rfl
  | cons a t ih =>
    rw [List.map_cons, List.map_cons, fst_barycenterPair, ih]

/-- Replacing one layer by a list with the same members preserves membership
in the flattened layer list. -/
theorem mem_flatten_set {l' : List String} (L : List (List String)) (i : Nat)
    (h : ∀ a, a ∈ l' ↔ a ∈ L.getD i []) (x : String) :
    x ∈ (L.set i l').flatten ↔ x ∈ L.flatten := by
  induction L generalizing i with
  | nil => simp
  | cons b bs ih =>
    cases i with
    | zero =>
      have hb : ∀ a, a ∈ l' ↔ a ∈ b := by simpa using h
      simp [List.mem_append, hb x]
    | succ j =>
      have hj : ∀ a, a ∈ l' ↔ a ∈ bs.getD j [] := by simpa using h
      simp [List.mem_append, ih j hj]

/-- One forward step preserves membership in the flattened layers. -/
theorem mem_flatten_forwardStep (inE : String → Option (List String))
    (st : List (List String) × (String → ℚ)) (i : Nat) (x : String) :
    x ∈ ((forwardStep inE st i).1).flatten ↔ x ∈ st.1.flatten := by
  refine mem_flatten_set st.1 i (fun a => ?_) x
  rw [mem_map_fst_sortByBc, map_fst_barycenterPairs]

/-- One backward step preserves membership in the flattened layers. -/
theorem mem_flatten_backwardStep (outE : String → Option (List String))
    (st : List (List String) × (String → ℚ)) (i : Nat) (x : String) :
    x ∈ ((backwardStep outE st i).1).flatten ↔ x ∈ st.1.flatten := by
  refine mem_flatten_set st.1 i (fun a => ?_) x
  rw [mem_map_fst_sortByBc, map_fst_barycenterPairs]

/-- The whole forward pass preserves membership. -/
theorem mem_flatten_forwardPass (inE : String → Option (List String))
    (idxs : List Nat) (st : List (List String) × (String → ℚ)) (x : String) :
    x ∈ ((idxs.foldl (forwardStep inE) st).1).flatten ↔ x ∈ st.1.flatten := by
  induction idxs generalizing st with
  | nil => exact Iff.rfl
  | cons i is ih =>
    rw [List.foldl_cons]
    exact (ih (forwardStep inE st i)).trans (mem_flatten_forwardStep inE st i x)

/-- The whole backward pass preserves membership. -/
theorem mem_flatten_backwardPass (outE : String → Option (List String))
    (idxs : List Nat) (st : List (List String) × (String → ℚ)) (x : String) :
    x ∈ ((idxs.foldl (backwardStep outE) st).1).flatten ↔ x ∈ st.1.flatten := by
  induction idxs generalizing st with
  | nil => exact Iff.rfl
  | cons i is ih =>
    rw [List.foldl_cons]
    exact (ih (backwardStep outE st i)).trans (mem_flatten_backwardStep outE st i x)

/-- The ordered layers have the same members as the assigned layers. -/
theorem mem_flatten_orderLayers (nodes : List GraphNode)
    (edges : List GraphEdge) (x : String) :
    x ∈ (orderLayers nodes edges).flatten ↔
      x ∈ (assignLayers nodes edges).flatten := by
  unfold orderLayers
  exact (mem_flatten_backwardPass _ _ _ x).trans (mem_flatten_forwardPass _ _ _ x)

/-! ## Keys of the positions map (claim C1) -/

/-- Keys of a JS-`Map.set`: the previous keys plus the written key. -/
theorem mem_keys_mapSet {α : Type} (m : List (String × α)) (k : String) (v : α)
    (a : String) :
    a ∈ (mapSet m k v).map Prod.fst ↔ a ∈ m.map Prod.fst ∨ a = k := by
  unfold mapSet
  by_cases h : m.any (fun p => p.1 = k)
  · rw [if_pos h]
    have hk : (m.map (fun p => if p.1 = k then (k, v) else p)).map Prod.fst
        = m.map Prod.fst := by
      rw [List.map_map]
      refine List.map_congr_left (fun p _ => ?_)
      by_cases hp : p.1 = k
      · simp [hp]
      · simp [hp]
    rw [hk]
    have hkm : k ∈ m.map Prod.fst := by
      rw [List.any_eq_true] at h
      obtain ⟨p, hp, he⟩ := h
      rw [decide_eq_true_iff] at he
      exact he ▸ List.mem_map_of_mem Prod.fst hp
    constructor
    · exact Or.inl
    · rintro (ha | rfl)
      · exact ha
      · exact hkm
  · rw [if_neg h]
    simp

/-- Keys accumulated by folding `mapSet`-based writers: any previous key and
any key any step writes is a key of the result. -/
theorem mem_keys_foldl_mapSet {α β : Type}
    (F : List (String × α) → β → List (String × α)) (g : β → List String)
    (hmono : ∀ pos b a, a ∈ pos.map Prod.fst → a ∈ (F pos b).map Prod.fst)
    (hincl : ∀ pos b a, a ∈ g b → a ∈ (F pos b).map Prod.fst) :
    ∀ (ps : List β) (pos : List (String × α)) (a : String),
      (a ∈ pos.map Prod.fst ∨ ∃ b ∈ ps, a ∈ g b) →
      a ∈ (ps.foldl F pos).map Prod.fst := by
  intro ps
  induction ps with
  | nil =>
    intro pos a h
    rcases h with ha | ⟨b, hb, _⟩
    · exact ha
    · cases hb
  | cons b bs ih =>
    intro pos a h
    rw [List.foldl_cons]
    apply ih
    rcases h with ha | ⟨c, hc, hac⟩
    · exact Or.inl (hmono pos b a ha)
    · rcases List.mem_cons.mp hc with rfl | hcs
      · exact Or.inl (hincl pos c a hac)
      · exact Or.inr ⟨c, hcs, hac⟩

/-- A member of a list is the second component of one of its `enum` pairs. -/
theorem exists_enum_of_mem {α : Type} {l : List α} {a : α} (h : a ∈ l) :
    ∃ b ∈ l.enum, b.2 = a := by
  have h2 : a ∈ l.enum.map Prod.snd := by
    rw [List.enum_map_snd]
    exact h
  obtain ⟨b, hb, hba⟩ := List.mem_map.mp h2
  exact ⟨b, hb, hba⟩

/-- Every member of some layer is a key of the final positions map. -/
theorem mem_keys_placeLayers (layers : List (List String)) (x : String)
    (hx : x ∈ layers.flatten) : x ∈ (placeLayers layers).map Prod.fst := by
  simp only [placeLayers]
  refine mem_keys_foldl_mapSet _ (fun li => li.2) ?_ ?_ layers.enum [] x ?_
  · intro pos li a ha
    refine mem_keys_foldl_mapSet _ (fun ni => [ni.2]) ?_ ?_ li.2.enum pos a
      (Or.inl ha)
    · intro pos2 ni b hb
      exact (mem_keys_mapSet pos2 ni.2 _ b).mpr (Or.inl hb)
    · intro pos2 ni b hb
      exact (mem_keys_mapSet pos2 ni.2 _ b).mpr (Or.inr (List.mem_singleton.mp hb))
  · intro pos li a ha
    refine mem_keys_foldl_mapSet _ (fun ni => [ni.2]) ?_ ?_ li.2.enum pos a ?_
    · intro pos2 ni b hb
      exact (mem_keys_mapSet pos2 ni.2 _ b).mpr (Or.inl hb)
    · intro pos2 ni b hb
      exact (mem_keys_mapSet pos2 ni.2 _ b).mpr (Or.inr (List.mem_singleton.mp hb))
    · right
      obtain ⟨ni, hni, hna⟩ := exists_enum_of_mem ha
      exact ⟨ni, hni, by show a ∈ [ni.2]; rw [hna]; exact List.mem_singleton.mpr rfl⟩
  · right
    obtain ⟨l, hl, hxl⟩ := List.mem_flatten.mp hx
    obtain ⟨li, hli, hl2⟩ := exists_enum_of_mem hl
    exact ⟨li, hli, by show x ∈ li.2; rw [hl2]; exact hxl⟩

end Tensorscope
namespace Tensorscope

/-! ## Claim C1: completeness of the position map -/

/-- Along the sweep, the `visited` set is exactly the union of the pushed
layers (each iteration pushes `currentLayer` and marks exactly it visited). -/
theorem bfsRun_visited_iff_flatten (outE : String → Option (List String)) :
    ∀ (fuel : Nat) (s : BfsState),
      (∀ x, x ∈ s.visited ↔ x ∈ s.layers.flatten) →
      ∀ x, x ∈ (bfsRun outE fuel s).visited ↔
        x ∈ (bfsRun outE fuel s).layers.flatten := by
  intro fuel
  induction fuel with
  | zero => exact fun s h => h
  | succ f ih =>
    intro s h x
    rw [bfsRun]
    by_cases hc : s.current = []
    · rw [if_pos hc]
      exact h x
    · rw [if_neg hc]
      apply ih
      intro y
      simp [List.mem_append, List.flatten_append, h y]

/-- In the final sweep state, `visited` and the flattened layers agree. -/
theorem bfsFinal_visited_iff_flatten (nodes : List GraphNode)
    (edges : List GraphEdge) (x : String) :
    x ∈ (bfsFinal nodes edges).visited ↔
      x ∈ (bfsFinal nodes edges).layers.flatten :=
  bfsRun_visited_iff_flatten _ _ _ (by intro y; simp [initState]) x

/-- The map initialization loop gives `none` on any undeclared id. -/
theorem initMap_undeclared {α : Type} (v : α) (u : String) :
    ∀ (nodes : List GraphNode) (m : String → Option α), m u = none →
      u ∉ nodes.map (fun n => n.id) →
      (nodes.foldl (fun m n => upd m n.id (some v)) m) u = none := by
  intro nodes
  induction nodes with
  | nil => exact fun m hm _ => hm
  | cons n ns ih =>
    intro m hm hu
    rw [List.map_cons, List.mem_cons] at hu
    push_neg at hu
    rw [List.foldl_cons]
    refine ih _ ?_ hu.2
    rw [upd, if_neg hu.1]
    exact hm

/-- Step `outEdgeStep` when the source id is present. -/
theorem outEdgeStep_present {m : String → Option (List String)} {e : GraphEdge}
    {l : List String} (h : m e.from_node = some l) :
    outEdgeStep m e = upd m e.from_node (some (l ++ [e.to_node])) := by
  unfold outEdgeStep
  rw [h]

/-- Step `outEdgeStep` when the source id is absent (the `?.` guard). -/
theorem outEdgeStep_absent {m : String → Option (List String)} {e : GraphEdge}
    (h : m e.from_node = none) : outEdgeStep m e = m := by
  unfold outEdgeStep
  rw [h]

/-- The out-edges build loop never creates a key: an id bound to `none` stays
`none` (the `?.push` guard skips edges whose `from_node` is absent). -/
theorem buildOutE_fold_none (u : String) :
    ∀ (edges : List GraphEdge) (m : String → Option (List String)),
      m u = none → (edges.foldl outEdgeStep m) u = none := by
  intro edges
  induction edges with
  | nil => exact fun m hm => hm
  | cons e es ih =>
    intro m hm
    rw [List.foldl_cons]
    cases hef : m e.from_node with
    | none =>
      rw [outEdgeStep_absent hef]
      exact ih m hm
    | some l =>
      rw [outEdgeStep_present hef]
      refine ih _ ?_
      rw [upd]
      by_cases hue : u = e.from_node
      · rw [hue] at hm
        rw [hm] at hef
        cases hef
      · rw [if_neg hue]
        exact hm

/-- Edges whose `from_node` is not a declared node id are dropped: the
adjacency map has no entry for such an id. -/
theorem buildOutE_undeclared (nodes : List GraphNode) (edges : List GraphEdge)
    (u : String) (hu : u ∉ nodes.map (fun n => n.id)) :
    buildOutE nodes edges u = none := by
  rw [buildOutE]
  exact buildOutE_fold_none u edges _ (initMap_undeclared [] u nodes _ rfl hu)


end Tensorscope
namespace Tensorscope

/-! ## Claim C3: the sweep never resolves a self-loop node

The development below tracks the sweep's in-degree bookkeeping exactly.  The
key facts: the frontier and visited set stay duplicate-free, the tracked
in-degree of an untouched id equals its initial value minus the number of
out-edge occurrences from already-processed sources, and a processed source
is processed only once — so a node with a self-loop (initial in-degree at
least one more than all non-self contributions) can never reach zero. -/

/-- Adjacency list of an id under the sweep's out-map (`get(u) || []` view,
matching every read site). -/
def adjList (outE : String → Option (List String)) (u : String) : List String :=
  (outE u).getD []

/-- Occurrences of `x` among the out-lists of a source list: the number of
times the sweep decrements `x` when it processes exactly these sources. -/
def countIn (outE : String → Option (List String)) (x : String)
    (srcs : List String) : Nat :=
  (srcs.flatMap (adjList outE)).count x

/-- Lemma: `processLayer` is the flat fold of `targetStep` over the concatenated
out-lists of the current layer. -/
theorem processLayer_eq_flat (outE : String → Option (List String))
    (visited : List String) :
    ∀ (current : List String) (st : (String → Int) × List String),
      processLayer outE visited st current =
        (current.flatMap (adjList outE)).foldl (targetStep visited) st := by
  intro current
  induction current with
  | nil => intro st; rfl
  | cons u us ih =>
    intro st
    have h1 : processLayer outE visited st (u :: us)
        = processLayer outE visited
            (((outE u).getD []).foldl (targetStep visited) st) us := rfl
    rw [h1, ih, List.flatMap_cons, List.foldl_append]
    rfl

/-- In-degree bookkeeping of the flat fold: an id outside `visited` is
decremented once per occurrence in the processed target list. -/
theorem tfold_inDeg (visited : List String) (x : String)
    (hx : visited.contains x = false) :
    ∀ (ts : List String) (d : String → Int) (a : List String),
      ((ts.foldl (targetStep visited) (d, a)).1) x = d x - (ts.count x : Int) := by
  intro ts
  induction ts with
  | nil => intro d a; simp
  | cons t ts ih =>
    intro d a
    rw [List.foldl_cons]
    cases hv : visited.contains t with
    | true =>
      have hne : (t == x) = false := by
        refine beq_eq_false_iff_ne.mpr (fun he => ?_)
        rw [he, hx] at hv
        cases hv
      have hstep : targetStep visited (d, a) t = (d, a) := by
        rw [targetStep, hv]
        simp
      rw [hstep, ih d a, List.count_cons, hne]
      simp
    | false =>
      have hstep : targetStep visited (d, a) t
          = (upd d t (d t - 1), if d t - 1 = 0 then a ++ [t] else a) := by
        rw [targetStep, hv]
        simp
      rw [hstep, ih, List.count_cons]
      by_cases hxt : t = x
      · subst hxt
        rw [upd, if_pos rfl]
        simp only [beq_self_eq_true, if_true]
        push_cast
        ring
      · have hne : (t == x) = false := beq_eq_false_iff_ne.mpr hxt
        rw [upd, if_neg (fun he => hxt he.symm), hne]
        simp

/-- Frontier bookkeeping of the flat fold: pushed ids are outside `visited`,
their tracked in-degree has reached zero and only ever decreases afterwards,
no id is pushed twice, and every pushed id comes from the target list. -/
theorem tfold_acc (visited : List String) :
    ∀ (ts : List String) (d : String → Int) (a : List String),
      (∀ x ∈ a, visited.contains x = false ∧ d x ≤ 0) → a.Nodup →
      (∀ x ∈ (ts.foldl (targetStep visited) (d, a)).2,
          visited.contains x = false ∧
          (ts.foldl (targetStep visited) (d, a)).1 x ≤ 0) ∧
      (ts.foldl (targetStep visited) (d, a)).2.Nodup ∧
      ∀ x ∈ (ts.foldl (targetStep visited) (d, a)).2, x ∈ a ∨ x ∈ ts := by
  intro ts
  induction ts with
  | nil =>
    intro d a ha hnd
    exact ⟨ha, hnd, fun x hx => Or.inl hx⟩
  | cons t ts ih =>
    intro d a ha hnd
    rw [List.foldl_cons]
    cases hv : visited.contains t with
    | true =>
      have hstep : targetStep visited (d, a) t = (d, a) := by
        rw [targetStep, hv]
        simp
      rw [hstep]
      obtain ⟨h1, h2, h3⟩ := ih d a ha hnd
      exact ⟨h1, h2, fun x hx => (h3 x hx).imp id (List.mem_cons_of_mem t)⟩
    | false =>
      by_cases hr : d t - 1 = 0
      · have hstep : targetStep visited (d, a) t
            = (upd d t (d t - 1), a ++ [t]) := by
          rw [targetStep, hv]
          simp [hr]
        have hta : t ∉ a := fun hta => by
          have := (ha t hta).2
          omega
        have ha' : ∀ x ∈ a ++ [t],
            visited.contains x = false ∧ upd d t (d t - 1) x ≤ 0 := by
          intro x hx
          rcases List.mem_append.mp hx with hxa | hxt
          · have hne : x ≠ t := fun he => hta (he ▸ hxa)
            rw [upd, if_neg hne]
            exact ha x hxa
          · rw [List.mem_singleton.mp hxt, upd, if_pos rfl]
            exact ⟨hv, by omega⟩
        have hdisj : a.Disjoint [t] := by
          intro x hx hxt
          exact hta (List.mem_singleton.mp hxt ▸ hx)
        have hnd' : (a ++ [t]).Nodup :=
          List.Nodup.append hnd (List.nodup_singleton t) hdisj
        rw [hstep]
        obtain ⟨h1, h2, h3⟩ := ih _ _ ha' hnd'
        refine ⟨h1, h2, fun x hx => ?_⟩
        rcases h3 x hx with hxa | hxt
        · rcases List.mem_append.mp hxa with h | h
          · exact Or.inl h
          · exact Or.inr (List.mem_singleton.mp h ▸ List.mem_cons_self t ts)
        · exact Or.inr (List.mem_cons_of_mem t hxt)
      · have hstep : targetStep visited (d, a) t = (upd d t (d t - 1), a) := by
          rw [targetStep, hv]
          simp [hr]
        have ha' : ∀ x ∈ a,
            visited.contains x = false ∧ upd d t (d t - 1) x ≤ 0 := by
          intro x hx
          refine ⟨(ha x hx).1, ?_⟩
          rw [upd]
          by_cases hxt : x = t
          · subst hxt
            have := (ha x hx).2
            rw [if_pos rfl]
            omega
          · rw [if_neg hxt]
            exact (ha x hx).2
        rw [hstep]
        obtain ⟨h1, h2, h3⟩ := ih _ _ ha' hnd
        exact ⟨h1, h2, fun x hx => (h3 x hx).imp id (List.mem_cons_of_mem t)⟩

end Tensorscope
namespace Tensorscope

/-! ## Characterizing the built adjacency and in-degree maps -/

/-- The node-initialization loop of `buildInDeg` keeps the constant-zero map. -/
theorem initZero (nodes : List GraphNode) :
    ∀ (m : String → Int), (∀ y, m y = 0) →
      ∀ y, (nodes.foldl (fun m n => upd m n.id 0) m) y = 0 := by
  induction nodes with
  | nil => exact fun m hm => hm
  | cons n ns ih =>
    intro m hm y
    rw [List.foldl_cons]
    refine ih _ (fun z => ?_) y
    rw [upd]
    by_cases hz : z = n.id
    · rw [if_pos hz]
    · rw [if_neg hz]
      exact hm z

/-- The increment loop of `buildInDeg` adds the number of matching edges. -/
theorem incrFold (x : String) :
    ∀ (edges : List GraphEdge) (m : String → Int),
      (edges.foldl (fun m e => upd m e.to_node (m e.to_node + 1)) m) x
        = m x + (edges.countP (fun e => e.to_node == x) : Int) := by
  intro edges
  induction edges with
  | nil => intro m; simp
  | cons e es ih =>
    intro m
    rw [List.foldl_cons, ih, List.countP_cons]
    by_cases he : e.to_node = x
    · have h1 : upd m e.to_node (m e.to_node + 1) x = m e.to_node + 1 := by
        rw [upd, if_pos he.symm]
      have h2 : (e.to_node == x) = true := beq_iff_eq.mpr he
      rw [h1, h2, he]
      simp
      omega
    · have h1 : upd m e.to_node (m e.to_node + 1) x = m x := by
        rw [upd, if_neg (fun hh => he hh.symm)]
      have h2 : (e.to_node == x) = false := beq_eq_false_iff_ne.mpr he
      rw [h1, h2]
      simp

/-- The in-degree map counts edges by `to_node` (declared target or not). -/
theorem buildInDeg_eq (nodes : List GraphNode) (edges : List GraphEdge)
    (x : String) :
    buildInDeg nodes edges x
      = (edges.countP (fun e => e.to_node == x) : Int) := by
  rw [buildInDeg, incrFold, initZero nodes _ (fun y => rfl) x]
  simp

/-- The node-initialization loop of the adjacency maps: declared ids get
`some []`, the rest keep their previous binding. -/
theorem initAdj (u : String) :
    ∀ (nodes : List GraphNode) (m : String → Option (List String)),
      (nodes.foldl (fun m n => upd m n.id (some ([] : List String))) m) u
        = if (nodes.map (fun n => n.id)).contains u then some [] else m u := by
  intro nodes
  induction nodes with
  | nil => intro m; simp
  | cons n ns ih =>
    intro m
    rw [List.foldl_cons, ih, List.map_cons, List.contains_cons]
    by_cases hd : (ns.map (fun n => n.id)).contains u
    · rw [hd]
      simp
    · by_cases hu : u = n.id
      · have hb : (u == n.id) = true := beq_iff_eq.mpr hu
        simp [hd, hb, upd, hu]
      · have hb : (u == n.id) = false := beq_eq_false_iff_ne.mpr hu
        simp [hd, hb, upd, hu]

/-- The edge loop of `buildOutE` over a declaredness-shaped base map: each
declared id accumulates the `to_node`s of its outgoing edges in order;
everything else stays absent. -/
theorem outEfold_spec (dec : String → Bool) :
    ∀ (edges : List GraphEdge) (F : String → List String),
      (edges.foldl outEdgeStep (fun v => if dec v then some (F v) else none))
      = fun v => if dec v then
          some (F v
            ++ (edges.filter (fun e => e.from_node == v)).map
                (fun e => e.to_node))
        else none := by
  intro edges
  induction edges with
  | nil =>
    intro F
    funext v
    by_cases hv : dec v
    · simp [hv]
    · simp [hv]
  | cons e es ih =>
    intro F
    rw [List.foldl_cons]
    by_cases hde : dec e.from_node
    · have hbase : (fun v => if dec v then some (F v) else none) e.from_node
          = some (F e.from_node) := by
        simp [hde]
      rw [outEdgeStep_present hbase]
      have hupd : upd (fun v => if dec v then some (F v) else none) e.from_node
            (some (F e.from_node ++ [e.to_node]))
          = fun v => if dec v then
              some (if v = e.from_node then F v ++ [e.to_node] else F v)
            else none := by
        funext v
        rw [upd]
        by_cases hv : v = e.from_node
        · rw [if_pos hv, if_pos hv]
          subst hv
          simp [hde]
        · rw [if_neg hv, if_neg hv]
      rw [hupd, ih]
      funext v
      by_cases hv : dec v
      · rw [if_pos hv, if_pos hv]
        rw [List.filter_cons]
        by_cases hve : e.from_node = v
        · subst hve
          simp
        · have hb : (e.from_node == v) = false := beq_eq_false_iff_ne.mpr hve
          have hv2 : ¬ v = e.from_node := fun hh => hve hh.symm
          simp [hb, hv2]
      · rw [if_neg hv, if_neg hv]
    · have hbase : (fun v => if dec v then some (F v) else none) e.from_node
          = none := by
        simp [hde]
      rw [outEdgeStep_absent hbase, ih]
      funext v
      by_cases hv : dec v
      · rw [if_pos hv, if_pos hv]
        have hb : (e.from_node == v) = false := by
          refine beq_eq_false_iff_ne.mpr (fun hh => hde ?_)
          rw [hh]
          exact hv
        rw [List.filter_cons, hb]
        simp
      · rw [if_neg hv, if_neg hv]

/-- Full characterization of the `outEdges` adjacency map. -/
theorem buildOutE_spec (nodes : List GraphNode) (edges : List GraphEdge)
    (u : String) :
    buildOutE nodes edges u =
      if (nodes.map (fun n => n.id)).contains u then
        some ((edges.filter (fun e => e.from_node == u)).map
          (fun e => e.to_node))
      else none := by
  have hinit : (nodes.foldl (fun m n => upd m n.id (some ([] : List String)))
        (fun _ => none))
      = fun v => if (nodes.map (fun n => n.id)).contains v then some []
          else none := by
    funext v
    rw [initAdj]
  rw [buildOutE, hinit,
    outEfold_spec ((nodes.map (fun n => n.id)).contains) edges (fun _ => [])]
  by_cases hd : (nodes.map (fun n => n.id)).contains u
  · simp [hd]
  · simp [hd]

end Tensorscope
namespace Tensorscope

/-! ## Counting bounds for the self-loop argument -/

/-- Occurrences of `x` in one adjacency list are bounded by the matching edge
count (equality for declared sources; an undeclared source has no list). -/
theorem count_adjList_le (nodes : List GraphNode) (edges : List GraphEdge)
    (u x : String) :
    (adjList (buildOutE nodes edges) u).count x
      ≤ edges.countP (fun e => e.from_node == u && e.to_node == x) := by
  rw [adjList, buildOutE_spec]
  by_cases hd : (nodes.map (fun n => n.id)).contains u
  · rw [if_pos hd, Option.getD_some, List.count_eq_countP, List.countP_map,
      List.countP_filter]
    refine List.countP_mono_left (fun e _ hc => ?_)
    simp only [Function.comp, Bool.and_eq_true] at hc
    rw [Bool.and_eq_true]
    exact ⟨hc.2, hc.1⟩
  · rw [if_neg hd]
    simp

/-- Disjoint Boolean predicates count additively. -/
theorem countP_or_disjoint {α : Type} (p q : α → Bool) :
    ∀ (l : List α), (∀ a ∈ l, ¬(p a = true ∧ q a = true)) →
      l.countP (fun a => p a || q a) = l.countP p + l.countP q := by
  intro l
  induction l with
  | nil => intro _; simp
  | cons a as ih =>
    intro h
    rw [List.countP_cons, List.countP_cons, List.countP_cons,
      ih (fun b hb => h b (List.mem_cons_of_mem a hb))]
    rcases Bool.eq_false_or_eq_true (p a) with hp | hp <;>
      rcases Bool.eq_false_or_eq_true (q a) with hq | hq
    · exact absurd ⟨hp, hq⟩ (h a (List.mem_cons_self a as))
    · simp [hp, hq]
      omega
    · simp [hp, hq]
      omega
    · simp [hp, hq]

/-- Count `countP` splits along a second predicate. -/
theorem countP_split {α : Type} (p r : α → Bool) (l : List α) :
    l.countP p
      = l.countP (fun a => p a && r a) + l.countP (fun a => p a && !(r a)) := by
  induction l with
  | nil => simp
  | cons a as ih =>
    rw [List.countP_cons, List.countP_cons, List.countP_cons, ih]
    rcases Bool.eq_false_or_eq_true (p a) with hp | hp <;>
      rcases Bool.eq_false_or_eq_true (r a) with hr | hr <;>
      simp [hp, hr] <;> omega

/-- Each duplicate-free source is processed once, so the total number of
decrements of `x` is bounded by the number of edges from those sources
into `x`. -/
theorem countIn_le_countP (nodes : List GraphNode) (edges : List GraphEdge)
    (x : String) :
    ∀ (srcs : List String), srcs.Nodup →
      countIn (buildOutE nodes edges) x srcs
        ≤ edges.countP
            (fun e => srcs.contains e.from_node && e.to_node == x) := by
  intro srcs
  induction srcs with
  | nil => intro _; simp [countIn]
  | cons u us ih =>
    intro hnd
    rw [countIn, List.flatMap_cons, List.count_append]
    have h1 := count_adjList_le nodes edges u x
    have h2 := ih (List.nodup_cons.mp hnd).2
    rw [countIn] at h2
    have hdisj : ∀ e ∈ edges,
        ¬((e.from_node == u && e.to_node == x) = true
          ∧ (us.contains e.from_node && e.to_node == x) = true) := by
      rintro e _ ⟨hl, hr⟩
      rw [Bool.and_eq_true] at hl hr
      have h3 : e.from_node = u := beq_iff_eq.mp hl.1
      have h4 : e.from_node ∈ us := by simpa using hr.1
      rw [h3] at h4
      exact (List.nodup_cons.mp hnd).1 h4
    have hsplit := countP_or_disjoint _ _ edges hdisj
    have hcong :
        edges.countP (fun e => (u :: us).contains e.from_node && e.to_node == x)
          = edges.countP (fun e =>
              (e.from_node == u && e.to_node == x)
              || (us.contains e.from_node && e.to_node == x)) := by
      refine List.countP_congr (fun e _ => ?_)
      rw [List.contains_cons, Bool.and_or_distrib_right]
    rw [hcong, hsplit]
    omega

/-- A self-loop contributes to the initial in-degree but never to the count
of decrements from a duplicate-free source list that excludes the node, so
that count stays strictly below the initial in-degree. -/
theorem selfLoop_count_lt (nodes : List GraphNode) (edges : List GraphEdge)
    (x : String) (hx : x ∈ adjList (buildOutE nodes edges) x)
    (srcs : List String) (hnd : srcs.Nodup) (hxs : x ∉ srcs) :
    (countIn (buildOutE nodes edges) x srcs : Int)
      < buildInDeg nodes edges x := by
  have hself : ∃ e ∈ edges, e.from_node = x ∧ e.to_node = x := by
    rw [adjList, buildOutE_spec] at hx
    by_cases hd : (nodes.map (fun n => n.id)).contains x
    · rw [if_pos hd, Option.getD_some] at hx
      obtain ⟨e, he, hex⟩ := List.mem_map.mp hx
      have he2 := List.mem_filter.mp he
      exact ⟨e, he2.1, beq_iff_eq.mp he2.2, hex⟩
    · rw [if_neg hd] at hx
      cases hx
  obtain ⟨e0, he0, hf0, ht0⟩ := hself
  have hpos :
      0 < edges.countP (fun e => e.to_node == x && e.from_node == x) := by
    rw [List.countP_pos_iff]
    refine ⟨e0, he0, ?_⟩
    rw [Bool.and_eq_true]
    exact ⟨beq_iff_eq.mpr ht0, beq_iff_eq.mpr hf0⟩
  have h1 := countIn_le_countP nodes edges x srcs hnd
  have h2 : edges.countP (fun e => srcs.contains e.from_node && e.to_node == x)
      ≤ edges.countP (fun e => e.to_node == x && !(e.from_node == x)) := by
    refine List.countP_mono_left (fun e _ hc => ?_)
    rw [Bool.and_eq_true] at hc
    rw [Bool.and_eq_true]
    refine ⟨hc.2, ?_⟩
    have hmem : e.from_node ∈ srcs := by simpa using hc.1
    have hne : e.from_node ≠ x := fun hh => hxs (hh ▸ hmem)
    simp [hne]
  have h3 := countP_split (fun e => e.to_node == x) (fun e => e.from_node == x)
    edges
  rw [buildInDeg_eq]
  have h4 : countIn (buildOutE nodes edges) x srcs
      < edges.countP (fun e => e.to_node == x) := by omega
  exact_mod_cast h4

end Tensorscope
namespace Tensorscope

/-! ## The sweep invariant -/

/-- Invariant of the layering sweep: visited ids and frontier are pairwise
distinct, ids with a self-loop never appear among them, every id the sweep
has touched lies in the given universe, and the tracked in-degree of an
untouched id is its initial value minus one per out-edge occurrence from the
already-visited sources. -/
def SweepInv (outE : String → Option (List String)) (inDeg0 : String → Int)
    (univ : List String) (s : BfsState) : Prop :=
  (s.visited ++ s.current).Nodup ∧
  (∀ x, x ∈ adjList outE x → x ∉ s.visited ++ s.current) ∧
  (∀ x ∈ s.visited ++ s.current, x ∈ univ) ∧
  (∀ x, x ∉ s.visited ++ s.current →
    s.inDeg x = inDeg0 x - (countIn outE x s.visited : Int))

/-- One sweep iteration preserves the invariant, given the self-loop counting
bound and that adjacency targets stay inside the universe. -/
theorem sweepInv_step (outE : String → Option (List String))
    (inDeg0 : String → Int) (univ : List String)
    (Hb : ∀ x, x ∈ adjList outE x → ∀ srcs : List String, srcs.Nodup →
      x ∉ srcs → (countIn outE x srcs : Int) < inDeg0 x)
    (Hu : ∀ u x, x ∈ adjList outE u → x ∈ univ)
    (s : BfsState) (hs : SweepInv outE inDeg0 univ s) :
    SweepInv outE inDeg0 univ
      { layers := s.layers ++ [s.current], visited := s.visited ++ s.current,
        inDeg :=
          (processLayer outE (s.visited ++ s.current) (s.inDeg, []) s.current).1,
        current :=
          (processLayer outE (s.visited ++ s.current) (s.inDeg, []) s.current).2
      } := by
  obtain ⟨hnd, hself, huniv, hdeg⟩ := hs
  rw [processLayer_eq_flat]
  have hacc := tfold_acc (s.visited ++ s.current)
    (s.current.flatMap (adjList outE)) s.inDeg []
    (fun x hx => absurd hx (List.not_mem_nil x)) List.nodup_nil
  obtain ⟨hfresh, hndn, hsrc⟩ := hacc
  have hVfalse : ∀ x,
      x ∈ (List.foldl (targetStep (s.visited ++ s.current))
          (s.inDeg, []) (s.current.flatMap (adjList outE))).2 →
      x ∉ s.visited ++ s.current := by
    intro x hx
    have := (hfresh x hx).1
    simpa using this
  have hpushBound : ∀ x,
      x ∈ (List.foldl (targetStep (s.visited ++ s.current))
          (s.inDeg, []) (s.current.flatMap (adjList outE))).2 →
      inDeg0 x ≤ (countIn outE x (s.visited ++ s.current) : Int) := by
    intro x hx
    have hxn := hVfalse x hx
    have hcf : (s.visited ++ s.current).contains x = false := by
      simpa using hxn
    have hd1 := tfold_inDeg (s.visited ++ s.current) x hcf
      (s.current.flatMap (adjList outE)) s.inDeg []
    have hd2 := (hfresh x hx).2
    rw [hd1, hdeg x hxn] at hd2
    have hcnt : countIn outE x (s.visited ++ s.current)
        = countIn outE x s.visited + countIn outE x s.current := by
      rw [countIn, countIn, countIn, List.flatMap_append, List.count_append]
    rw [hcnt]
    have hc2 : (s.current.flatMap (adjList outE)).count x
        = countIn outE x s.current := rfl
    rw [hc2] at hd2
    push_cast
    omega
  refine ⟨?_, ?_, ?_, ?_⟩
  · refine List.Nodup.append hnd hndn ?_
    intro x hx1 hx2
    exact hVfalse x hx2 hx1
  · intro x hax
    rw [List.mem_append]
    rintro (hin | hin)
    · exact hself x hax hin
    · have hb := Hb x hax (s.visited ++ s.current) hnd (hself x hax)
      have := hpushBound x hin
      omega
  · intro x hx
    rcases List.mem_append.mp hx with hin | hin
    · exact huniv x hin
    · rcases hsrc x hin with h | h
      · cases h
      · obtain ⟨u, _, hu⟩ := List.mem_flatMap.mp h
        exact Hu u x hu
  · intro x hxn
    have hxo : x ∉ s.visited ++ s.current := fun h =>
      hxn (List.mem_append_left _ h)
    have hcf : (s.visited ++ s.current).contains x = false := by
      simpa using hxo
    have hd1 := tfold_inDeg (s.visited ++ s.current) x hcf
      (s.current.flatMap (adjList outE)) s.inDeg []
    show (List.foldl (targetStep (s.visited ++ s.current)) (s.inDeg, [])
        (s.current.flatMap (adjList outE))).1 x
      = inDeg0 x - (countIn outE x (s.visited ++ s.current) : Int)
    rw [hd1, hdeg x hxo]
    have hcnt : countIn outE x (s.visited ++ s.current)
        = countIn outE x s.visited + countIn outE x s.current := by
      rw [countIn, countIn, countIn, List.flatMap_append, List.count_append]
    rw [hcnt]
    have hc2 : (s.current.flatMap (adjList outE)).count x
        = countIn outE x s.current := rfl
    rw [hc2]
    push_cast
    ring

/-- The invariant holds along the whole sweep. -/
theorem sweepInv_run (outE : String → Option (List String))
    (inDeg0 : String → Int) (univ : List String)
    (Hb : ∀ x, x ∈ adjList outE x → ∀ srcs : List String, srcs.Nodup →
      x ∉ srcs → (countIn outE x srcs : Int) < inDeg0 x)
    (Hu : ∀ u x, x ∈ adjList outE u → x ∈ univ) :
    ∀ (fuel : Nat) (s : BfsState), SweepInv outE inDeg0 univ s →
      SweepInv outE inDeg0 univ (bfsRun outE fuel s) := by
  intro fuel
  induction fuel with
  | zero => exact fun s hs => hs
  | succ f ih =>
    intro s hs
    rw [bfsRun]
    by_cases hc : s.current = []
    · rw [if_pos hc]
      exact hs
    · rw [if_neg hc]
      exact ih _ (sweepInv_step outE inDeg0 univ Hb Hu s hs)

/-- With enough fuel — one unit per universe element plus one — the sweep
reaches an empty frontier: the embedded `while` loop terminates. -/
theorem bfsRun_exhausts (outE : String → Option (List String))
    (inDeg0 : String → Int) (univ : List String)
    (Hb : ∀ x, x ∈ adjList outE x → ∀ srcs : List String, srcs.Nodup →
      x ∉ srcs → (countIn outE x srcs : Int) < inDeg0 x)
    (Hu : ∀ u x, x ∈ adjList outE u → x ∈ univ) :
    ∀ (fuel : Nat) (s : BfsState), SweepInv outE inDeg0 univ s →
      univ.length + 1 ≤ fuel + s.visited.length →
      (bfsRun outE fuel s).current = [] := by
  intro fuel
  induction fuel with
  | zero =>
    intro s hs hlen
    exfalso
    have hnds : s.visited.Nodup :=
      (List.nodup_append.mp hs.1).1
    have hsub : s.visited ⊆ univ := fun x hx =>
      hs.2.2.1 x (List.mem_append_left _ hx)
    have := (List.subperm_of_subset hnds hsub).length_le
    omega
  | succ f ih =>
    intro s hs hlen
    rw [bfsRun]
    by_cases hc : s.current = []
    · rw [if_pos hc]
      exact hc
    · rw [if_neg hc]
      refine ih _ (sweepInv_step outE inDeg0 univ Hb Hu s hs) ?_
      have hone : 1 ≤ s.current.length := by
        cases hcc : s.current with
        | nil => exact absurd hcc hc
        | cons a t => simp
      simp only [List.length_append]
      omega

end Tensorscope
namespace Tensorscope

/-! ## Claim C3: instantiating the invariant for the built graph maps -/

/-- The initial sweep state componentwise. -/
theorem initState_current (nodes : List GraphNode) (edges : List GraphEdge) :
    (initState nodes edges).current
      = (nodes.filter (fun n => buildInDeg nodes edges n.id = 0)).map
          (fun n => n.id) := rfl

/-- The initial visited set is empty. -/
theorem initState_visited (nodes : List GraphNode) (edges : List GraphEdge) :
    (initState nodes edges).visited = [] := rfl

/-- The initial in-degree map is the built one. -/
theorem initState_inDeg (nodes : List GraphNode) (edges : List GraphEdge) :
    (initState nodes edges).inDeg = buildInDeg nodes edges := rfl

/-- Adjacency targets are `to_node`s of edges, hence in the sweep universe. -/
theorem adjList_subset_univ (nodes : List GraphNode) (edges : List GraphEdge) :
    ∀ (u x : String), x ∈ adjList (buildOutE nodes edges) u →
      x ∈ nodes.map (fun n => n.id) ++ edges.map (fun e => e.to_node) := by
  intro u x hx
  rw [adjList, buildOutE_spec] at hx
  by_cases hd : (nodes.map (fun n => n.id)).contains u
  · rw [if_pos hd, Option.getD_some] at hx
    obtain ⟨e, he, hex⟩ := List.mem_map.mp hx
    refine List.mem_append_right _ ?_
    exact hex ▸ List.mem_map_of_mem _ (List.mem_of_mem_filter he)
  · rw [if_neg hd] at hx
    cases hx

/-- A node with a self-loop has positive initial in-degree. -/
theorem selfAdj_inDeg_pos (nodes : List GraphNode) (edges : List GraphEdge)
    (x : String) (hx : x ∈ adjList (buildOutE nodes edges) x) :
    0 < buildInDeg nodes edges x := by
  have h := selfLoop_count_lt nodes edges x hx [] List.nodup_nil
    (List.not_mem_nil x)
  simpa [countIn] using h

/-- The sweep invariant holds initially when node ids are distinct. -/
theorem sweepInv_init (nodes : List GraphNode) (edges : List GraphEdge)
    (hnd : (nodes.map (fun n => n.id)).Nodup) :
    SweepInv (buildOutE nodes edges) (buildInDeg nodes edges)
      (nodes.map (fun n => n.id) ++ edges.map (fun e => e.to_node))
      (initState nodes edges) := by
  refine ⟨?_, ?_, ?_, ?_⟩
  · rw [initState_visited, initState_current, List.nil_append]
    exact ((List.filter_sublist nodes).map (fun n => n.id)).nodup hnd
  · intro x hax hmem
    rw [initState_visited, initState_current, List.nil_append] at hmem
    obtain ⟨n, hnf, hni⟩ := List.mem_map.mp hmem
    have h0 : buildInDeg nodes edges n.id = 0 :=
      of_decide_eq_true (List.mem_filter.mp hnf).2
    have hpos := selfAdj_inDeg_pos nodes edges x hax
    rw [hni] at h0
    omega
  · intro x hmem
    rw [initState_visited, initState_current, List.nil_append] at hmem
    obtain ⟨n, hnf, hni⟩ := List.mem_map.mp hmem
    refine List.mem_append_left _ ?_
    exact hni ▸ List.mem_map_of_mem _ (List.mem_of_mem_filter hnf)
  · intro x _
    rw [initState_visited, initState_inDeg]
    simp [countIn]

/-- C3 (amended). For every graph whose node ids are pairwise distinct
(the data model requires unique ids), the layering sweep terminates: within
the `|V| + |E| + 1` available iterations it reaches an empty frontier — no
infinite loop.  But a self-loop is counted in its node's in-degree and is
never consumed (its source would have to be visited first), so a node with a
self-loop edge is excluded from the initial zero-in-degree layer, is never
resolved by the sweep at all, and instead receives its own fallback singleton
layer after the resolved layers.  It is *not* assigned the layer it would
receive without the self-loop, and its self-loop stays in the adjacency lists
used for barycenter averaging (see the counterexample). -/
theorem selfLoopBlocksSweep (nodes : List GraphNode) (edges : List GraphEdge)
    (hnd : (nodes.map (fun n => n.id)).Nodup) :
    (bfsFinal nodes edges).current = [] ∧
    ∀ n ∈ nodes, (∃ e ∈ edges, e.from_node = n.id ∧ e.to_node = n.id) →
      n.id ∉ (initState nodes edges).current ∧
      n.id ∉ (bfsFinal nodes edges).visited ∧
      [n.id] ∈ assignLayers nodes edges := by
  have Hb : ∀ x, x ∈ adjList (buildOutE nodes edges) x →
      ∀ srcs : List String, srcs.Nodup → x ∉ srcs →
      (countIn (buildOutE nodes edges) x srcs : Int)
        < buildInDeg nodes edges x :=
    fun x hx srcs hnds hxs => selfLoop_count_lt nodes edges x hx srcs hnds hxs
  have Hu := adjList_subset_univ nodes edges
  have hinv0 := sweepInv_init nodes edges hnd
  constructor
  · refine bfsRun_exhausts _ _ _ Hb Hu (layoutFuel nodes edges) _ hinv0 ?_
    rw [initState_visited]
    simp [layoutFuel]
  · intro n hn hself
    have hadj : n.id ∈ adjList (buildOutE nodes edges) n.id := by
      have hd : (nodes.map (fun n => n.id)).contains n.id = true := by
        have hm : n.id ∈ nodes.map (fun n => n.id) :=
          List.mem_map_of_mem (fun n => n.id) hn
        simpa using hm
      rw [adjList, buildOutE_spec, if_pos hd, Option.getD_some]
      obtain ⟨e, he, hf, ht⟩ := hself
      refine List.mem_map.mpr ⟨e, ?_, ht⟩
      exact List.mem_filter.mpr ⟨he, beq_iff_eq.mpr hf⟩
    have hfin := sweepInv_run _ _ _ Hb Hu (layoutFuel nodes edges) _ hinv0
    have hnv : n.id ∉ (bfsFinal nodes edges).visited := by
      intro hmem
      exact hfin.2.1 n.id hadj (List.mem_append_left _ hmem)
    refine ⟨?_, hnv, ?_⟩
    · intro hmem
      refine hinv0.2.1 n.id hadj ?_
      rw [initState_visited, List.nil_append]
      exact hmem
    · show [n.id] ∈ addFallback (bfsFinal nodes edges).visited nodes
        (bfsFinal nodes edges).layers
      rw [addFallback_eq]
      refine List.mem_append_right _ ?_
      refine List.mem_map.mpr ⟨n, ?_, rfl⟩
      refine List.mem_filter.mpr ⟨hn, ?_⟩
      have hc : (bfsFinal nodes edges).visited.contains n.id = false := by
        simpa using hnv
      rw [hc]
      rfl

/-- Witness for `selfLoopBlocksSweep` on the two-node graph with the
self-loop `A → A`. -/
theorem selfLoopBlocksSweep_witness :
    (bfsFinal [mkNode "A", mkNode "B"] [mkEdge "A" "A"]).current = [] ∧
    [(mkNode "A").id]
      ∈ assignLayers [mkNode "A", mkNode "B"] [mkEdge "A" "A"] :=
  ⟨(selfLoopBlocksSweep [mkNode "A", mkNode "B"] [mkEdge "A" "A"]
      (by decide)).1,
   ((selfLoopBlocksSweep [mkNode "A", mkNode "B"] [mkEdge "A" "A"]
      (by decide)).2 (mkNode "A") (by decide)
      ⟨mkEdge "A" "A", by decide, rfl, rfl⟩).2.2⟩

end Tensorscope

namespace Tensorscope

/-! ## Claim C1: statement, witness and counterexample -/

/-- C1 (amended). Function `calculateLayout` is total (it never throws) and
the returned position map's key set *contains* every declared node id —
isolated nodes, self-loops and cycle members included (first conjunct).  The
claim's other parts fail: unknown-id edges are *not* dropped from the
layering math.  The in-degree driving the layering counts every edge by its
`to_node`, whether or not either endpoint is a declared node id (second
conjunct, mirroring the unconditional increment at source line 143), so an
edge with an undeclared `from_node` still inflates its declared target's
in-degree — and, its source never being processed, permanently blocks that
target into a fallback layer — while an edge with an undeclared `to_node`
can push the unknown id into a layer and make it an extra key, so the key
set can strictly exceed the declared id set.  Both effects are exhibited
concretely in the counterexample. -/
theorem layoutCoversDeclaredNodes (nodes : List GraphNode)
    (edges : List GraphEdge) :
    (∀ n ∈ nodes, n.id ∈ (calculateLayout nodes edges).map Prod.fst) ∧
    (∀ x, buildInDeg nodes edges x
        = (edges.countP (fun e => e.to_node == x) : Int)) := by
  constructor
  · intro n hn
    have hne : ¬ nodes.length = 0 := by
      cases nodes with
      | nil => cases hn
      | cons a t => simp
    rw [calculateLayout, if_neg hne]
    apply mem_keys_placeLayers
    rw [mem_flatten_orderLayers]
    show n.id ∈ (addFallback (bfsFinal nodes edges).visited nodes
      (bfsFinal nodes edges).layers).flatten
    rw [addFallback_eq, List.flatten_append, List.mem_append]
    cases hv : (bfsFinal nodes edges).visited.contains n.id with
    | true =>
      left
      exact (bfsFinal_visited_iff_flatten nodes edges n.id).mp (by simpa using hv)
    | false =>
      right
      rw [List.mem_flatten]
      refine ⟨[n.id], ?_, List.mem_singleton.mpr rfl⟩
      exact List.mem_map_of_mem _ (List.mem_filter.mpr ⟨hn, by rw [hv]; rfl⟩)
  · exact fun x => buildInDeg_eq nodes edges x

/-- Witness for `layoutCoversDeclaredNodes`: coverage on the unknown-target
graph, and the in-degree formula on the unknown-source graph, where the
edge `X → B` (undeclared `X`) gives the declared `B` in-degree 1. -/
theorem layoutCoversDeclaredNodes_witness :
    (mkNode "A").id
        ∈ (calculateLayout [mkNode "A"] [mkEdge "A" "X"]).map Prod.fst ∧
    buildInDeg [mkNode "A", mkNode "B"] [mkEdge "X" "B"] "B" = 1 :=
  ⟨(layoutCoversDeclaredNodes [mkNode "A"] [mkEdge "A" "X"]).1 (mkNode "A")
      (List.mem_singleton.mpr rfl),
   by
    rw [(layoutCoversDeclaredNodes [mkNode "A", mkNode "B"]
      [mkEdge "X" "B"]).2 "B"]
    decide⟩

/-- C1 (counterexample). Unknown-id edges are not dropped from the layering
math, and the position map's key set need not equal the declared node id
set.  First input: for the declared node list `[A]` and the single edge
`A → X` whose `to_node` `X` is undeclared, the sweep walks `A`'s out-list,
decrements the tracked in-degree of `X` to zero and pushes `X` into a layer,
so the returned position map has key set `{A, X}` — strictly larger than
`{A}` (first two conjuncts).  Second input: for declared nodes `[A, B]` and
the single edge `X → B` whose `from_node` `X` is undeclared, the build loop
(source line 143) still increments `B`'s in-degree, and since `X` is never
processed that in-degree is never consumed, so `B` is shifted from layer 0 —
its layer with the edge absent — into the fallback layer 1: the unknown-from
edge changes the layering of a declared node (last two conjuncts). -/
theorem unknownTargetEntersPositionMap :
    "X" ∈ (calculateLayout [mkNode "A"] [mkEdge "A" "X"]).map Prod.fst ∧
    "X" ∉ ([mkNode "A"].map (fun n => n.id)) ∧
    layerOf (assignLayers [mkNode "A", mkNode "B"] [mkEdge "X" "B"]) "B"
        = some 1 ∧
    layerOf (assignLayers [mkNode "A", mkNode "B"] []) "B" = some 0 := by
  refine ⟨?_, by decide, by decide, by decide⟩
  rw [calculateLayout, if_neg (by decide)]
  apply mem_keys_placeLayers
  rw [mem_flatten_orderLayers]
  decide

end Tensorscope
